import Mathlib

/-!
Shallow embedding of `src/slither/detectors/low-level-call-detector.py`
(class `LowLevelCallDetector`), together with proofs about its behaviour.

The Python detector walks `compilation_unit.contracts_derived`, then each
contract's `functions_declared`, then each function's `nodes`; on nodes of
type `NodeType.EXPRESSION` it applies the regular expression
`\.call(\{.*\})?\(.*\)` (via `re.search`) to `str(node.expression)`, and,
when the pattern matches, suppresses the finding exactly when the node
returned by `get_previous_node` exists and its source text contains the
substring `[slither: low-level call explicitly allowed]`.

Strings are modelled as `List Char` where character-level reasoning is
needed; Python's `str` values on the model side are Lean `String`s.
-/

namespace LowLevelCall

/-- The node kinds of the host's CFG nodes.  The detector only ever compares
a node's type against `NodeType.EXPRESSION`; the remaining host node kinds
are represented by the other constructors. -/
inductive NodeType where
  | EXPRESSION
  | ENTRYPOINT
  | VARIABLE
  | RETURN
  | OTHER
deriving DecidableEq

/-- A CFG node as consumed by the detector: its `type`, its optional
`expression` (carried as the canonical textual rendering that Python's
`str(node.expression)` would produce for a present expression), and the
exact source text that `node.source_mapping.get_source_code()` returns. -/
structure Node where
  ntype : NodeType
  expression : Option String
  source_code : String
deriving DecidableEq

/-- A function of the program model: its `name` and its ordered node list
(`function.nodes`). -/
structure Function where
  name : String
  nodes : List Node
deriving DecidableEq

/-- A contract of the program model.  `functions_declared` is what the
detector iterates; `functions_inherited` — modelled from the spec: functions
inherited but not redeclared, which the host exposes but the detector never
reads. -/
structure Contract where
  name : String
  functions_declared : List Function
  functions_inherited : List Function
deriving DecidableEq

/-- The compilation unit.  `contracts_derived` is what the detector
iterates; `contracts_other` — modelled from the spec: the reachable
contracts outside the derived/concrete set (abstract or non-instantiated),
which the detector never reads. -/
structure CompilationUnit where
  contracts_other : List Contract
  contracts_derived : List Contract
deriving DecidableEq

/-! ## The pattern matcher

`low_level_call_pattern = re.compile(r'\.call(\{.*\})?\(.*\)')` searched
with `re.search`.  In Python's `re`, `.` matches any character except a
newline, and `search` succeeds exactly when some substring of the input is
in the pattern's language.  The functions below implement that search
operationally: scan every start position; at a position require the literal
`.call`, then either `(`, any non-newline run, `)`, or `{`, any non-newline
run, `}` followed by `(`, any non-newline run, `)`.  The brace and
parenthesis contents are arbitrary non-newline characters, so the closing
delimiter the engine uses may be any later one (backtracking); the scanners
below therefore keep looking past candidate closers. -/

/-- Scan for a `)` that closes `\(.*\)`: some `)` must occur with no
newline before it. -/
def scanClose : List Char → Bool
  | [] => false
  | c :: t => if c = ')' then true else if c = '\n' then false else scanClose t

/-- Match `\(.*\)` as a prefix: a `(`, then a closing `)` reachable without
crossing a newline. -/
def openParen : List Char → Bool
  | [] => false
  | c :: t => c = '(' && scanClose t

/-- After `\{`, match `.*\}` and then `\(.*\)`: some `}` must occur with no
newline before it such that `\(.*\)` matches right after it.  Since `.*`
may itself consume `}` characters, every candidate `}` is tried. -/
def scanBrace : List Char → Bool
  | [] => false
  | c :: t => (c = '\x7d' && openParen t) || (c ≠ '\n' && scanBrace t)

/-- Match `\{.*\}\(.*\)` as a prefix. -/
def braceOpen : List Char → Bool
  | [] => false
  | c :: t => c = '\x7b' && scanBrace t

/-- Match `(\{.*\})?\(.*\)` as a prefix: either the optional brace group is
absent and `\(.*\)` matches directly, or the brace group is present. -/
def afterCall (t : List Char) : Bool :=
  openParen t || braceOpen t

/-- Match the whole pattern `\.call(\{.*\})?\(.*\)` anchored at the start
of `t`. -/
def matchAt : List Char → Bool
  | c1 :: c2 :: c3 :: c4 :: c5 :: t =>
      c1 = '.' && c2 = 'c' && c3 = 'a' && c4 = 'l' && c5 = 'l' && afterCall t
  | _ => false

/-- `re.search(low_level_call_pattern, s)` viewed as a Boolean: the pattern
matches anchored at some position of `s`. -/
def searchCall : List Char → Bool
  | [] => false
  | c :: t => matchAt (c :: t) || searchCall t

/-! ## The suppression substring test

Python's `allowed_comment not in previous_node.source_mapping.get_source_code()`
is exact, case-sensitive substring containment. -/

/-- `isPrefixList n h`: the list `n` is a prefix of `h` (character-exact). -/
def isPrefixList : List Char → List Char → Bool
  | [], _ => true
  | _ :: _, [] => false
  | a :: n, b :: h => a = b && isPrefixList n h

/-- Python's substring operator `needle in hay`: `needle` occurs
contiguously in `hay`, byte/character-exact, case-sensitive, with no
trimming or normalization. -/
def strContains (needle : List Char) (hay : List Char) : Bool :=
  match hay with
  | [] => isPrefixList needle []
  | _ :: t => isPrefixList needle hay || strContains needle t

/-- `allowed_comment = "[slither: low-level call explicitly allowed]"`. -/
def allowed_comment : String := "[slither: low-level call explicitly allowed]"

/-! ## The detector -/

/-- Python's `list.index`: index of the first element of the list that
compares equal to `a`.  (Python raises `ValueError` when `a` is absent;
the detector only ever calls this with a member of the list, in which case
the result is the first equal position.) -/
def listIndex [DecidableEq α] : List α → α → Nat
  | [], _ => 0
  | b :: t, a => if b = a then 0 else listIndex t a + 1

/-- `LowLevelCallDetector.get_previous_node(function, node)`: look the node
up in `function.nodes` by `nodes.index(node)` (first equal occurrence) and
return the element one position earlier, or `None` when that index is 0. -/
def get_previous_node (function : Function) (node : Node) : Option Node :=
  let nodes := function.nodes
  let node_index := listIndex nodes node
  if node_index > 0 then nodes.get? (node_index - 1) else none

/-- Python's `str` applied to `node.expression`: a present expression
renders as its canonical text; `str(None)` is the literal text `"None"`. -/
def exprStr : Option String → String
  | none => "None"
  | some s => s

/-- The message of `generate_result`: the f-string
`f"Function {function.name} contains a low-level call: {expression_str}
without explicit comment allowance"`. -/
def findingMessage (fname expression_str : String) : String :=
  "Function " ++ fname ++ " contains a low-level call: " ++ expression_str
    ++ " without explicit comment allowance"

/-- The body of the innermost loop of `_detect` for one node: `none` when
the node contributes no finding (wrong node type, no pattern match, or
suppressed), otherwise the finding's message. -/
def nodeFinding (function : Function) (node : Node) : Option String :=
  if node.ntype = NodeType.EXPRESSION then
    let expression_str := exprStr node.expression
    if searchCall expression_str.toList then
      match get_previous_node function node with
      | none => some (findingMessage function.name expression_str)
      | some previous_node =>
          if strContains allowed_comment.toList previous_node.source_code.toList then
            none
          else
            some (findingMessage function.name expression_str)
    else none
  else none

/-- The findings contributed by one function, in node order. -/
def function_findings (function : Function) : List String :=
  function.nodes.filterMap (nodeFinding function)

/-- The findings contributed by one contract, in declared-function order. -/
def contract_findings (contract : Contract) : List String :=
  contract.functions_declared.flatMap function_findings

/-- `LowLevelCallDetector._detect`: the ordered list of finding messages
accumulated over `contracts_derived × functions_declared × nodes`. -/
def detect (cu : CompilationUnit) : List String :=
  cu.contracts_derived.flatMap contract_findings

/-- The detection pass as the host runs it: it reads the compilation unit
and returns the results list; nothing of the program model is written, so
the pass maps the model to itself alongside the findings. -/
def run_detector (cu : CompilationUnit) : CompilationUnit × List String :=
  (cu, detect cu)

/-! ## Declarative shapes for the pattern

`containsCallShapeNN` states, declaratively, what `re.search` with
`\.call(\{.*\})?\(.*\)` recognizes: some substring is `.call`, optionally
followed by a brace-delimited run, then a parenthesized run, where each run
is an arbitrary (possibly empty) sequence of non-newline characters
(Python's `.` does not match a newline).  `containsCallShapeAny` is the
same shape with truly arbitrary runs (newlines allowed); it follows the
spec's words for comparison with the implemented matcher. -/

/-- No character of the list is a newline (the characters `.` can match in
Python's `re`). -/
def noNewline (l : List Char) : Prop := ∀ c ∈ l, c ≠ '\n'

/-- The literal characters `.call`. -/
def dotcall : List Char := ['.', 'c', 'a', 'l', 'l']

/-- The part after `.call`: `(…)` or `{…}(…)`, runs newline-free. -/
def tailShapeNN (m : List Char) : Prop :=
  (∃ v, noNewline v ∧ m = '(' :: v ++ [')'])
    ∨ (∃ u v, noNewline u ∧ noNewline v ∧
        m = '\x7b' :: u ++ '\x7d' :: '(' :: v ++ [')'])

/-- A full match of the pattern: `.call`, then `tailShapeNN`. -/
def callShapeNN (m : List Char) : Prop :=
  ∃ t, m = dotcall ++ t ∧ tailShapeNN t

/-- Some substring of `s` is a full match of the pattern. -/
def containsCallShapeNN (s : List Char) : Prop :=
  ∃ p m q, s = p ++ m ++ q ∧ callShapeNN m

/-- The part after `.call` with arbitrary runs, as the spec words it:
the brace and parenthesis contents may be any characters whatsoever. -/
def tailShapeAny (m : List Char) : Prop :=
  (∃ v, m = '(' :: v ++ [')'])
    ∨ (∃ u v, m = '\x7b' :: u ++ '\x7d' :: '(' :: v ++ [')'])

/-- A full match of the spec-worded shape: `.call`, then `tailShapeAny`. -/
def callShapeAny (m : List Char) : Prop :=
  ∃ t, m = dotcall ++ t ∧ tailShapeAny t

/-- Some substring of `s` matches the spec-worded shape. -/
def containsCallShapeAny (s : List Char) : Prop :=
  ∃ p m q, s = p ++ m ++ q ∧ callShapeAny m

/-- The combined per-node condition of `_detect`: the node is an expression
statement, its rendering matches the pattern, and suppression does not
apply (`not previous_node or allowed_comment not in …`). -/
def matched_not_suppressed (function : Function) (node : Node) : Bool :=
  (node.ntype = NodeType.EXPRESSION) &&
    searchCall (exprStr node.expression).toList &&
    (match get_previous_node function node with
     | none => true
     | some previous_node =>
         !(strContains allowed_comment.toList previous_node.source_code.toList))

/-! ## Concrete program models used as test inputs -/

/-- A non-expression node whose source text is the exact suppression
marker comment. -/
def exMarkerNode : Node :=
  ⟨NodeType.OTHER, none, "// [slither: low-level call explicitly allowed]"⟩

/-- An expression-statement node performing a low-level call. -/
def exCallNode : Node :=
  ⟨NodeType.EXPRESSION, some "addr.call(data)", "addr.call(data);"⟩

/-- A non-expression node whose source text does not contain the marker. -/
def exPlainNode : Node := ⟨NodeType.OTHER, none, "x = 1"⟩

/-- A malformed node: expression kind, but no expression attached. -/
def exBadNode : Node := ⟨NodeType.EXPRESSION, none, "y = z + 1;"⟩

/-- A function whose node list contains the call node twice: once right
after the marker node and once right after the plain node. -/
def exDupFunction : Function :=
  ⟨"f", [exMarkerNode, exCallNode, exPlainNode, exCallNode]⟩

/-- A compilation unit holding only `exDupFunction`. -/
def exDupUnit : CompilationUnit := ⟨[], [⟨"C", [exDupFunction], []⟩]⟩

/-- A function with an unannotated low-level call after a plain node. -/
def exPairFunction : Function := ⟨"f", [exPlainNode, exCallNode]⟩

/-- A function with a single low-level call node and nothing before it. -/
def exSingleFunction : Function := ⟨"k", [exCallNode]⟩

/-- A function whose first node is malformed, followed by a call node. -/
def exBadFunction : Function := ⟨"h", [exBadNode, exCallNode]⟩

/-- A compilation unit holding only `exBadFunction`. -/
def exBadUnit : CompilationUnit := ⟨[], [⟨"C", [exBadFunction], []⟩]⟩

/-- A contract declaring `exPairFunction`. -/
def exContract1 : Contract := ⟨"C1", [exPairFunction], []⟩

/-- A contract declaring `exSingleFunction`. -/
def exContract2 : Contract := ⟨"C2", [exSingleFunction], []⟩

/-- A compilation unit holding `exContract2` alone. -/
def exSingleUnit : CompilationUnit := ⟨[], [exContract2]⟩

/-! ## Correctness of the operational matcher -/

theorem scanClose_iff (t : List Char) :
    scanClose t = true ↔ ∃ v r, t = v ++ ')' :: r ∧ noNewline v := by
  induction t with
  | nil =>
    simp only [scanClose, Bool.false_eq_true, false_iff]
    rintro ⟨v, r, h, -⟩
    exact absurd h.symm (by simp)
  | cons c t ih =>
    by_cases hc : c = ')'
    · subst hc
      simp only [scanClose, if_pos]
      constructor
      · intro _
        exact ⟨[], t, rfl, by simp [noNewline]⟩
      · intro _
        trivial
    · by_cases hn : c = '\n'
      · subst hn
        rw [scanClose, if_neg hc, if_pos rfl]
        simp only [Bool.false_eq_true, false_iff]
        rintro ⟨v, r, h, hv⟩
        cases v with
        | nil =>
          simp only [List.nil_append, List.cons.injEq] at h
          exact hc h.1
        | cons a v =>
          simp only [List.cons_append, List.cons.injEq] at h
          exact hv a (by simp) h.1.symm
      · rw [scanClose, if_neg hc, if_neg hn, ih]
        constructor
        · rintro ⟨v, r, h, hv⟩
          refine ⟨c :: v, r, by rw [h, List.cons_append], ?_⟩
          intro x hx
          rcases List.mem_cons.mp hx with hx | hx
          · exact hx ▸ hn
          · exact hv x hx
        · rintro ⟨v, r, h, hv⟩
          cases v with
          | nil =>
            simp only [List.nil_append, List.cons.injEq] at h
            exact absurd h.1 hc
          | cons a v =>
            simp only [List.cons_append, List.cons.injEq] at h
            exact ⟨v, r, h.2, fun x hx => hv x (List.mem_cons_of_mem a hx)⟩

theorem openParen_iff (t : List Char) :
    openParen t = true ↔ ∃ v r, t = '(' :: v ++ ')' :: r ∧ noNewline v := by
  cases t with
  | nil =>
    simp only [openParen, Bool.false_eq_true, false_iff]
    rintro ⟨v, r, h, -⟩
    exact absurd h.symm (by simp)
  | cons c t =>
    simp only [openParen, Bool.and_eq_true, decide_eq_true_eq, scanClose_iff]
    constructor
    · rintro ⟨rfl, v, r, rfl, hv⟩
      exact ⟨v, r, rfl, hv⟩
    · rintro ⟨v, r, h, hv⟩
      simp only [List.cons_append, List.cons.injEq] at h
      exact ⟨h.1, v, r, h.2, hv⟩

theorem scanBrace_iff (t : List Char) :
    scanBrace t = true ↔
      ∃ u r, t = u ++ '\x7d' :: r ∧ noNewline u ∧ openParen r = true := by
  induction t with
  | nil =>
    simp only [scanBrace, Bool.false_eq_true, false_iff]
    rintro ⟨u, r, h, -, -⟩
    exact absurd h.symm (by simp)
  | cons c t ih =>
    simp only [scanBrace, Bool.or_eq_true, Bool.and_eq_true, decide_eq_true_eq, ih]
    constructor
    · rintro (⟨rfl, hp⟩ | ⟨hn, u, r, h, hu, hp⟩)
      · exact ⟨[], t, rfl, by simp [noNewline], hp⟩
      · refine ⟨c :: u, r, by rw [h, List.cons_append], ?_, hp⟩
        intro x hx
        rcases List.mem_cons.mp hx with hx | hx
        · exact hx ▸ hn
        · exact hu x hx
    · rintro ⟨u, r, h, hu, hp⟩
      cases u with
      | nil =>
        simp only [List.nil_append, List.cons.injEq] at h
        exact Or.inl ⟨h.1, h.2 ▸ hp⟩
      | cons a u =>
        simp only [List.cons_append, List.cons.injEq] at h
        exact Or.inr ⟨h.1 ▸ hu a (List.mem_cons_self a u), u, r, h.2,
          fun x hx => hu x (List.mem_cons_of_mem a hx), hp⟩

theorem braceOpen_iff (t : List Char) :
    braceOpen t = true ↔
      ∃ u v r, t = '\x7b' :: u ++ '\x7d' :: '(' :: v ++ ')' :: r ∧
        noNewline u ∧ noNewline v := by
  cases t with
  | nil =>
    simp only [braceOpen, Bool.false_eq_true, false_iff]
    rintro ⟨u, v, r, h, -, -⟩
    exact absurd h.symm (by simp)
  | cons c t =>
    simp only [braceOpen, Bool.and_eq_true, decide_eq_true_eq, scanBrace_iff]
    constructor
    · rintro ⟨rfl, u, r, rfl, hu, hp⟩
      rcases (openParen_iff r).mp hp with ⟨v, r', rfl, hv⟩
      exact ⟨u, v, r', by simp, hu, hv⟩
    · rintro ⟨u, v, r, h, hu, hv⟩
      simp only [List.cons_append, List.cons.injEq] at h
      refine ⟨h.1, u, '(' :: v ++ ')' :: r, ?_, hu,
        (openParen_iff _).mpr ⟨v, r, rfl, hv⟩⟩
      rw [h.2]
      simp

theorem afterCall_iff (t : List Char) :
    afterCall t = true ↔ ∃ m r, t = m ++ r ∧ tailShapeNN m := by
  simp only [afterCall, Bool.or_eq_true, openParen_iff, braceOpen_iff]
  constructor
  · rintro (⟨v, r, rfl, hv⟩ | ⟨u, v, r, rfl, hu, hv⟩)
    · exact ⟨'(' :: v ++ [')'], r, by simp, Or.inl ⟨v, hv, rfl⟩⟩
    · exact ⟨'\x7b' :: u ++ '\x7d' :: '(' :: v ++ [')'], r, by simp,
        Or.inr ⟨u, v, hu, hv, rfl⟩⟩
  · rintro ⟨m, r, rfl, (⟨v, hv, rfl⟩ | ⟨u, v, hu, hv, rfl⟩)⟩
    · exact Or.inl ⟨v, r, by simp, hv⟩
    · exact Or.inr ⟨u, v, r, by simp, hu, hv⟩

theorem matchAt_iff (t : List Char) :
    matchAt t = true ↔ ∃ r, t = dotcall ++ r ∧ afterCall r = true := by
  match t with
  | [] => simp [matchAt, dotcall]
  | [c1] => simp [matchAt, dotcall]
  | [c1, c2] => simp [matchAt, dotcall]
  | [c1, c2, c3] => simp [matchAt, dotcall]
  | [c1, c2, c3, c4] => simp [matchAt, dotcall]
  | c1 :: c2 :: c3 :: c4 :: c5 :: t => simp [matchAt, dotcall, and_assoc]

theorem matchAt_shape (t : List Char) :
    matchAt t = true ↔ ∃ m r, t = m ++ r ∧ callShapeNN m := by
  simp only [matchAt_iff, afterCall_iff, callShapeNN]
  constructor
  · rintro ⟨r, rfl, m, r', rfl, hm⟩
    exact ⟨dotcall ++ m, r', by rw [List.append_assoc], m, rfl, hm⟩
  · rintro ⟨m, r, rfl, tl, rfl, htl⟩
    exact ⟨tl ++ r, by rw [List.append_assoc], tl, r, rfl, htl⟩

theorem searchCall_iff (s : List Char) :
    searchCall s = true ↔ ∃ p t, s = p ++ t ∧ matchAt t = true := by
  induction s with
  | nil =>
    simp only [searchCall, Bool.false_eq_true, false_iff]
    rintro ⟨p, t, h, hm⟩
    rcases List.append_eq_nil.mp h.symm with ⟨rfl, rfl⟩
    simp [matchAt] at hm
  | cons c s ih =>
    simp only [searchCall, Bool.or_eq_true, ih]
    constructor
    · rintro (h | ⟨p, t, rfl, hm⟩)
      · exact ⟨[], c :: s, rfl, h⟩
      · exact ⟨c :: p, t, rfl, hm⟩
    · rintro ⟨p, t, h, hm⟩
      cases p with
      | nil => exact Or.inl (h ▸ hm)
      | cons a p =>
        simp only [List.cons_append, List.cons.injEq] at h
        exact Or.inr ⟨p, t, h.2, hm⟩

/-! ## The claims -/

/-- C3: the pattern matcher returns true on each of `x.call(data)`,
`x.call{value: 1}(data)` and `target.call{value: v, gas: g}("")`, and
false on `x.transfer(1)` and on `x.caller`; a text with several call-like
substrings also matches (any single match suffices), and the matcher is a
pure function of the input text. -/
theorem pattern_coverage_examples :
    searchCall "x.call(data)".toList = true ∧
    searchCall "x.call\x7bvalue: 1\x7d(data)".toList = true ∧
    searchCall "target.call\x7bvalue: v, gas: g\x7d(\"\")".toList = true ∧
    searchCall "x.transfer(1)".toList = false ∧
    searchCall "x.caller".toList = false ∧
    searchCall "a.call(1); b.call(2)".toList = true := by decide

/-- C4 counterexample: the text `.call(` newline `)` contains the claimed
shape `.call(...)` with the parenthesis content an arbitrary character run
(here a newline), yet the matcher returns false: Python's `.` does not
match a newline, so the runs are not "any characters whatsoever". -/
theorem search_excludes_newline_runs :
    searchCall ".call(\n)".toList = false ∧
    containsCallShapeAny ".call(\n)".toList := by
  refine ⟨by decide, [], ".call(\n)".toList, [], by simp, ['(', '\n', ')'], by decide,
    Or.inl ⟨['\n'], rfl⟩⟩

/-- C4 (amended): for every input text, the matcher returns true exactly
when the text contains `.call`, optionally followed by a brace-delimited
run, then a parenthesized run, where each run is an arbitrary (possibly
empty) sequence of non-newline characters — with no balanced-bracket
requirement. -/
theorem search_matches_call_shape (s : List Char) :
    searchCall s = true ↔ containsCallShapeNN s := by
  simp only [searchCall_iff, matchAt_shape, containsCallShapeNN]
  constructor
  · rintro ⟨p, t, rfl, m, r, rfl, hm⟩
    exact ⟨p, m, r, by rw [List.append_assoc], hm⟩
  · rintro ⟨p, m, q, rfl, hm⟩
    exact ⟨p, m ++ q, by rw [List.append_assoc], m, q, rfl, hm⟩

/-- C1 counterexample: in `exDupUnit` the call node occurs a second time
at position 3 of `exDupFunction`; its immediately preceding node
(position 2, `exPlainNode`) does not contain the marker, so by C1 a
finding would have to be produced for it — yet the detector, which looks
nodes up by first equal occurrence, suppresses both occurrences and
outputs nothing. -/
theorem suppression_not_by_position :
    exDupFunction.nodes.get? 3 = some exCallNode ∧
    exCallNode.ntype = NodeType.EXPRESSION ∧
    searchCall (exprStr exCallNode.expression).toList = true ∧
    exDupFunction.nodes.get? 2 = some exPlainNode ∧
    strContains allowed_comment.toList exPlainNode.source_code.toList = false ∧
    detect exDupUnit = [] := by decide

/-- C1 (amended): for a matched expression-statement node that sits at
position `i + 1` of its function's node sequence and is the first
occurrence of its value there (its first equal index is `i + 1`), the
finding is suppressed — the node contributes `none` — if and only if the
rendered source text of the node at position `i` contains the exact,
case-sensitive marker substring; any other text does not suppress. -/
theorem suppression_exactness_first_occurrence
    (function : Function) (node previous : Node) (i : Nat)
    (_hnode : function.nodes.get? (i + 1) = some node)
    (hfirst : listIndex function.nodes node = i + 1)
    (hprev : function.nodes.get? i = some previous)
    (hexpr : node.ntype = NodeType.EXPRESSION)
    (hmatch : searchCall (exprStr node.expression).toList = true) :
    nodeFinding function node = none ↔
      strContains allowed_comment.toList previous.source_code.toList = true := by
  have hpr : get_previous_node function node = some previous := by
    simp only [get_previous_node]
    rw [hfirst]
    simpa using hprev
  have hmatch' : searchCall (exprStr node.expression).data = true := hmatch
  by_cases hs : strContains allowed_comment.data previous.source_code.data = true
  · simp [nodeFinding, hexpr, hmatch', hpr, hs]
  · simp [nodeFinding, hexpr, hmatch', hpr, hs]

/-- Witness for C1's theorem: in `exPairFunction` the call node at
position 1 is preceded by `exPlainNode`, whose text lacks the marker. -/
theorem suppression_exactness_first_occurrence_witness :
    nodeFinding exPairFunction exCallNode = none ↔
      strContains allowed_comment.toList exPlainNode.source_code.toList = true :=
  suppression_exactness_first_occurrence exPairFunction exCallNode exPlainNode 0
    (by decide) (by decide) (by decide) (by decide) (by decide)

/-- C2: a matching expression-statement node that is the first node of its
function is always reported — its message is in the detector's output —
for every compilation unit, contract and function containing it,
regardless of the rest of the function's contents. -/
theorem first_node_always_reported
    (cu : CompilationUnit) (contract : Contract) (function : Function)
    (node : Node) (rest : List Node)
    (hc : contract ∈ cu.contracts_derived)
    (hf : function ∈ contract.functions_declared)
    (hn : function.nodes = node :: rest)
    (hexpr : node.ntype = NodeType.EXPRESSION)
    (hmatch : searchCall (exprStr node.expression).toList = true) :
    findingMessage function.name (exprStr node.expression) ∈ detect cu := by
  have hprev : get_previous_node function node = none := by
    unfold get_previous_node
    rw [hn]
    simp [listIndex]
  have hmatch' : searchCall (exprStr node.expression).data = true := hmatch
  have hfind : nodeFinding function node =
      some (findingMessage function.name (exprStr node.expression)) := by
    simp [nodeFinding, hexpr, hmatch', hprev]
  simp only [detect, contract_findings, function_findings]
  refine List.mem_flatMap.mpr ⟨contract, hc, ?_⟩
  refine List.mem_flatMap.mpr ⟨function, hf, ?_⟩
  exact List.mem_filterMap.mpr ⟨node, by rw [hn]; exact List.mem_cons_self _ _, hfind⟩

/-- Witness for C2's theorem: the single-node function `exSingleFunction`
yields its finding in `detect exSingleUnit`. -/
theorem first_node_always_reported_witness :
    findingMessage "k" (exprStr exCallNode.expression) ∈ detect exSingleUnit :=
  first_node_always_reported exSingleUnit exContract2 exSingleFunction exCallNode []
    (by decide) (by decide) rfl (by decide) (by decide)

/-- C5 counterexample: in `exBadUnit` the first node claims expression
kind but has no expression.  The pass does not fail fatally: the node
renders as the literal text `None`, is silently skipped, and the pass
runs to completion producing its normal output — a finding for the call
node that follows. -/
theorem malformed_node_silently_skipped :
    exBadNode.ntype = NodeType.EXPRESSION ∧
    exBadNode.expression = none ∧
    exprStr exBadNode.expression = "None" ∧
    nodeFinding exBadFunction exBadNode = none ∧
    detect exBadUnit = [findingMessage "h" "addr.call(data)"] := by decide

/-- C5 (amended): an expression-kind node with no expression is silently
skipped rather than failing: its rendering is the text `None`, which
never matches the pattern, so the node contributes no finding and the
traversal continues normally. -/
theorem missing_expression_never_reported (function : Function) (node : Node)
    (hexpr : node.ntype = NodeType.EXPRESSION)
    (hnone : node.expression = none) :
    nodeFinding function node = none := by
  have hs : searchCall (exprStr node.expression).data = false := by
    rw [hnone]; decide
  simp [nodeFinding, hexpr, hs]

/-- Witness for C5's theorem: the malformed node of `exBadFunction`
contributes no finding. -/
theorem missing_expression_never_reported_witness :
    nodeFinding exBadFunction exBadNode = none :=
  missing_expression_never_reported exBadFunction exBadNode (by decide) (by decide)

/-- C6: the traversal examines exactly the derived contracts, their
declared functions, and expression-statement nodes: contracts outside
`contracts_derived` never affect the output, a contract's inherited
functions never affect its findings, and a node of any other kind never
yields a finding. -/
theorem traversal_scope_exact :
    (∀ other other' derived,
        detect ⟨other, derived⟩ = detect ⟨other', derived⟩)
    ∧ (∀ nm fd fi fi',
        contract_findings ⟨nm, fd, fi⟩ = contract_findings ⟨nm, fd, fi'⟩)
    ∧ (∀ (function : Function) (node : Node),
        node.ntype ≠ NodeType.EXPRESSION → nodeFinding function node = none) := by
  refine ⟨fun _ _ _ => rfl, fun _ _ _ _ => rfl, fun function node h => ?_⟩
  simp [nodeFinding, h]

/-- Witness for C6's theorem: the non-expression node `exPlainNode` yields
no finding. -/
theorem traversal_scope_exact_witness :
    nodeFinding exPairFunction exPlainNode = none :=
  traversal_scope_exact.2.2 exPairFunction exPlainNode (by decide)

/-- C7: findings appear exactly in traversal order with no re-sorting:
the output over a concatenation of contract lists (resp. of a contract's
function lists) is the concatenation of the outputs, and for two
contracts each contributing one finding, the first contract's finding
precedes the second's. -/
theorem findings_traversal_order :
    (∀ other cs1 cs2,
        detect ⟨other, cs1 ++ cs2⟩ = detect ⟨other, cs1⟩ ++ detect ⟨other, cs2⟩)
    ∧ (∀ nm fi fs1 fs2,
        contract_findings ⟨nm, fs1 ++ fs2, fi⟩ =
          contract_findings ⟨nm, fs1, fi⟩ ++ contract_findings ⟨nm, fs2, fi⟩)
    ∧ (∀ other c1 c2 m1 m2, contract_findings c1 = [m1] → contract_findings c2 = [m2] →
        detect ⟨other, [c1, c2]⟩ = [m1, m2]) := by
  refine ⟨fun o cs1 cs2 => List.flatMap_append cs1 cs2 _,
    fun nm fi fs1 fs2 => List.flatMap_append fs1 fs2 _,
    fun o c1 c2 m1 m2 h1 h2 => ?_⟩
  simp [detect, h1, h2]

/-- Witness for C7's theorem: `exContract1`'s finding precedes
`exContract2`'s in the output over `[exContract1, exContract2]`. -/
theorem findings_traversal_order_witness :
    detect ⟨[], [exContract1, exContract2]⟩ =
      [findingMessage "f" "addr.call(data)", findingMessage "k" "addr.call(data)"] :=
  findings_traversal_order.2.2 [] exContract1 exContract2
    (findingMessage "f" "addr.call(data)") (findingMessage "k" "addr.call(data)")
    (by decide) (by decide)

/-- `nodeFinding` written as a guard on the combined per-node condition. -/
theorem nodeFinding_eq_ite (function : Function) (node : Node) :
    nodeFinding function node =
      if matched_not_suppressed function node = true then
        some (findingMessage function.name (exprStr node.expression))
      else none := by
  by_cases h1 : node.ntype = NodeType.EXPRESSION
  · by_cases h2 : searchCall (exprStr node.expression).data = true
    · cases hp : get_previous_node function node with
      | none => simp [nodeFinding, matched_not_suppressed, h1, h2, hp]
      | some p =>
        by_cases h3 : strContains allowed_comment.data p.source_code.data = true
        · simp [nodeFinding, matched_not_suppressed, h1, h2, hp, h3]
        · simp [nodeFinding, matched_not_suppressed, h1, h2, hp, h3]
    · simp [nodeFinding, matched_not_suppressed, h1, h2]
  · simp [nodeFinding, matched_not_suppressed, h1]

/-- `filterMap` of a guarded `some` is a `filter` followed by a `map`. -/
theorem filterMap_ite {α β : Type} (p : α → Bool) (g : α → β) (l : List α) :
    l.filterMap (fun a => if p a = true then some (g a) else none) =
      (l.filter p).map g := by
  induction l with
  | nil => rfl
  | cons a l ih =>
    by_cases h : p a = true
    · simp [List.filterMap_cons, List.filter_cons, h, ih]
    · simp [List.filterMap_cons, List.filter_cons, h, ih]

/-- C8: the output is exactly the messages of the matched, not-suppressed
nodes in traversal order: each function contributes the messages of its
matching nodes (at most one finding per node), each message naming the
function and the matched expression's rendering; and a message is in the
output iff some derived contract declares a function with such a node. -/
theorem findings_invariant (cu : CompilationUnit) :
    (∀ function : Function,
        function_findings function =
          (function.nodes.filter (matched_not_suppressed function)).map
            (fun node => findingMessage function.name (exprStr node.expression)))
    ∧ (∀ msg : String,
        msg ∈ detect cu ↔
          ∃ contract ∈ cu.contracts_derived,
            ∃ function ∈ contract.functions_declared,
              ∃ node ∈ function.nodes, matched_not_suppressed function node = true ∧
                msg = findingMessage function.name (exprStr node.expression)) := by
  constructor
  · intro function
    unfold function_findings
    have : nodeFinding function = fun node =>
        if matched_not_suppressed function node = true then
          some (findingMessage function.name (exprStr node.expression))
        else none := funext (nodeFinding_eq_ite function)
    rw [this, filterMap_ite]
  · intro msg
    simp only [detect, contract_findings, function_findings, List.mem_flatMap,
      List.mem_filterMap]
    constructor
    · rintro ⟨contract, hc, function, hf, node, hn, hfind⟩
      rw [nodeFinding_eq_ite] at hfind
      by_cases h : matched_not_suppressed function node = true
      · rw [if_pos h] at hfind
        exact ⟨contract, hc, function, hf, node, hn, h, (Option.some_inj.mp hfind).symm⟩
      · rw [if_neg h] at hfind
        exact absurd hfind (by simp)
    · rintro ⟨contract, hc, function, hf, node, hn, h, rfl⟩
      exact ⟨contract, hc, function, hf, node, hn, by rw [nodeFinding_eq_ite, if_pos h]⟩

/-- C9: the detection pass leaves the program model unchanged, and running
the pass a second time, on the model returned by the first run, produces
the identical finding list. -/
theorem detector_deterministic_and_readonly (cu : CompilationUnit) :
    (run_detector cu).1 = cu ∧
    (run_detector ((run_detector cu).1)).2 = (run_detector cu).2 :=
  ⟨rfl, rfl⟩

/-- Python's `list.index` on `pre ++ a :: post` returns `pre.length` when
`a` does not occur in `pre`. -/
theorem listIndex_append_first [DecidableEq α] (pre post : List α) (a : α)
    (ha : a ∉ pre) : listIndex (pre ++ a :: post) a = pre.length := by
  induction pre with
  | nil => simp [listIndex]
  | cons b pre ih =>
    have hb : ¬b = a := fun h => ha (h ▸ List.mem_cons_self b pre)
    have ha' : a ∉ pre := fun h => ha (List.mem_cons_of_mem b h)
    simp [listIndex, hb, ih ha']

/-- C10: `get_previous_node` locates the matched node by value equality:
whenever the node sequence splits as `pre ++ node :: post` with `node` not
occurring in `pre` (so this is the first equal occurrence; `post` may
contain further equal occurrences), the lookup returns the last node of
`pre` — the node immediately before the first equal occurrence — no matter
which occurrence the traversal is visiting, and `none` when `pre` is
empty. -/
theorem previous_node_first_equal_occurrence
    (nm : String) (pre post : List Node) (node : Node) (hpre : node ∉ pre) :
    get_previous_node ⟨nm, pre ++ node :: post⟩ node = pre.getLast? := by
  simp only [get_previous_node]
  rw [listIndex_append_first pre post node hpre]
  cases pre with
  | nil => simp
  | cons b pre' =>
    have hlt : (b :: pre').length - 1 < (b :: pre').length := by simp
    rw [if_pos (by simp), List.get?_eq_getElem?, List.getElem?_append_left hlt,
      ← List.getLast?_eq_getElem?]

/-- Witness for C10's theorem: with the call node at positions 1 and 3,
the lookup returns the node before position 1 (`exPlainNode`), not the
node before position 3. -/
theorem previous_node_first_equal_occurrence_witness :
    get_previous_node ⟨"f", [exPlainNode, exCallNode, exMarkerNode, exCallNode]⟩
      exCallNode = some exPlainNode := by
  have h := previous_node_first_equal_occurrence "f" [exPlainNode]
    [exMarkerNode, exCallNode] exCallNode (by decide)
  simpa using h

end LowLevelCall
